import Mathlib

/-!
Verification of the numeric signal-analysis core of `fft-explorer`
(`src/services/fft.ts` together with the record types of `src/types.ts`).

The embedding is shallow: JavaScript `number` arithmetic is modelled by
exact real arithmetic (`ℝ`), arrays by `List`, and the defensive
`arr[i] || default` access pattern by `List.getD`.  The three functions of
`src/services/fft.ts` — `dft`, `fft`, `getFrequencyComponents` — are
translated definition by definition below.
-/

namespace FFTExplorer

/-- Type `Complex` from `src/types.ts`: `{ re: number; im: number }`. -/
structure Complex where
  re : ℝ
  im : ℝ

/-- Type `FrequencyComponent` from `src/types.ts`. -/
structure FrequencyComponent where
  frequency : ℕ
  amplitude : ℝ
  phase : ℝ
  signal : List ℝ

/-- JavaScript `Math.atan2(y, x)`: the argument of the point `(x, y)`,
in `(-π, π]`, with `atan2 0 0 = 0`; this is exactly `Complex.arg`. -/
noncomputable def atan2 (y x : ℝ) : ℝ := Complex.arg ⟨x, y⟩

/-- Function `dft` of `src/services/fft.ts`: the direct quadratic-time discrete
Fourier transform.  For every `k < n` it accumulates
`re += input[t]*cos(2πkt/n)` and `im -= input[t]*sin(2πkt/n)`. -/
noncomputable def dft (input : List ℝ) : List Complex :=
  (List.range input.length).map fun (k : ℕ) =>
    { re := ∑ t ∈ Finset.range input.length,
        input.getD t 0 * Real.cos ((2 * Real.pi * (k : ℝ) * (t : ℝ)) / (input.length : ℝ)),
      im := -∑ t ∈ Finset.range input.length,
        input.getD t 0 * Real.sin ((2 * Real.pi * (k : ℝ) * (t : ℝ)) / (input.length : ℝ)) }

/-- The even-index elements of a list: the `evenInput` array built by `fft`
(`if (i % 2 === 0) evenInput.push(input[i])`). -/
def evenIdx : List ℝ → List ℝ
  | [] => []
  | [x] => [x]
  | x :: _ :: rest => x :: evenIdx rest

/-- The odd-index elements of a list: the `oddInput` array built by `fft`. -/
def oddIdx : List ℝ → List ℝ
  | [] => []
  | [_] => []
  | _ :: y :: rest => y :: oddIdx rest

theorem evenIdx_length : ∀ l : List ℝ, (evenIdx l).length = (l.length + 1) / 2
  | [] => by simp [evenIdx]
  | [_] => by simp [evenIdx]
  | _ :: _ :: rest => by
      simp only [evenIdx, List.length_cons, evenIdx_length rest]
      omega

theorem oddIdx_length : ∀ l : List ℝ, (oddIdx l).length = l.length / 2
  | [] => by simp [oddIdx]
  | [_] => by simp [oddIdx]
  | _ :: _ :: rest => by
      simp only [oddIdx, List.length_cons, oddIdx_length rest]
      omega

theorem evenIdx_getD : ∀ (l : List ℝ) (j : ℕ), (evenIdx l).getD j 0 = l.getD (2 * j) 0
  | [], j => by simp [evenIdx]
  | [x], j => by
      cases j with
      | zero => rfl
      | succ j =>
          have h2 : 2 * (j + 1) = 2 * j + 1 + 1 := by omega
          simp [evenIdx, h2, List.getD]
  | x :: y :: rest, j => by
      cases j with
      | zero => rfl
      | succ j =>
          have h2 : 2 * (j + 1) = 2 * j + 1 + 1 := by omega
          simp only [evenIdx, h2, List.getD_cons_succ, evenIdx_getD rest j]

theorem oddIdx_getD : ∀ (l : List ℝ) (j : ℕ), (oddIdx l).getD j 0 = l.getD (2 * j + 1) 0
  | [], j => by simp [oddIdx]
  | [x], j => by
      cases j with
      | zero =>
          simp [oddIdx, List.getD]
      | succ j =>
          have h2 : 2 * (j + 1) + 1 = 2 * j + 1 + 1 + 1 := by omega
          simp [oddIdx, h2, List.getD]
  | x :: y :: rest, j => by
      cases j with
      | zero => rfl
      | succ j =>
          have h2 : 2 * (j + 1) + 1 = 2 * j + 1 + 1 + 1 := by omega
          simp only [oddIdx, h2, List.getD_cons_succ, oddIdx_getD rest j]

/-- Function `fft` of `src/services/fft.ts`.  `n <= 1` returns `[{re: input[0] || 0, im: 0}]`;
a non-power-of-two length falls back to `dft`; otherwise the input is split by
index parity, both halves are transformed recursively, and the butterfly loop
fills `results[k]` and `results[k + n/2]` for `k < n/2` (rendered here as the
concatenation of the two halves it fills).  The accesses `odd[k] || {re:0,im:0}`
and `even[k] || {re:0,im:0}` are rendered with `List.getD`. -/
noncomputable def fft (input : List ℝ) : List Complex :=
  if input.length ≤ 1 then
    [{ re := input.getD 0 0, im := 0 }]
  else if input.length &&& (input.length - 1) ≠ 0 then
    dft input
  else
    let even := fft (evenIdx input)
    let odd := fft (oddIdx input)
    ((List.range (input.length / 2)).map fun (k : ℕ) =>
      let w : Complex := { re := Real.cos ((-2 * Real.pi * (k : ℝ)) / (input.length : ℝ)),
                           im := Real.sin ((-2 * Real.pi * (k : ℝ)) / (input.length : ℝ)) }
      let oddK := odd.getD k ⟨0, 0⟩
      let evenK := even.getD k ⟨0, 0⟩
      let oddW : Complex := { re := oddK.re * w.re - oddK.im * w.im,
                              im := oddK.re * w.im + oddK.im * w.re }
      ({ re := evenK.re + oddW.re, im := evenK.im + oddW.im } : Complex))
    ++ ((List.range (input.length / 2)).map fun (k : ℕ) =>
      let w : Complex := { re := Real.cos ((-2 * Real.pi * (k : ℝ)) / (input.length : ℝ)),
                           im := Real.sin ((-2 * Real.pi * (k : ℝ)) / (input.length : ℝ)) }
      let oddK := odd.getD k ⟨0, 0⟩
      let evenK := even.getD k ⟨0, 0⟩
      let oddW : Complex := { re := oddK.re * w.re - oddK.im * w.im,
                              im := oddK.re * w.im + oddK.im * w.re }
      ({ re := evenK.re - oddW.re, im := evenK.im - oddW.im } : Complex))
termination_by input.length
decreasing_by
· simp only [evenIdx_length]; omega
· simp only [oddIdx_length]; omega

/-- Function `getFrequencyComponents` of `src/services/fft.ts`.  The `n` parameter
(the original sample count) is declared by the source but never read: every
quantity is computed from `actualLen = fftData.length`.  The loop runs
`k = 1, …, half - 1` (`List.range' 1 (half - 1)`), skipping (`continue`)
when `fftData[k]` is absent. -/
noncomputable def getFrequencyComponents (fftData : List Complex) (n : ℤ) : List FrequencyComponent :=
  if fftData.length = 0 then []
  else
    let actualLen := fftData.length
    let half := actualLen / 2
    (List.range' 1 (half - 1)).filterMap fun (k : ℕ) =>
      match fftData[k]? with
      | none => none
      | some bin =>
        let re := bin.re
        let im := bin.im
        let amplitude := Real.sqrt (re * re + im * im) * 2 / (actualLen : ℝ)
        let phase := atan2 im re
        let signal := (List.range actualLen).map fun (i : ℕ) =>
          amplitude * Real.cos ((2 * Real.pi * (k : ℝ) * (i : ℝ)) / (actualLen : ℝ) + phase)
        some { frequency := k, amplitude := amplitude, phase := phase, signal := signal }

/-! ### Bridge to Mathlib's complex numbers

`toC` reinterprets the record type of `src/types.ts` as an element of `ℂ`,
`cexp x = exp (x * I)` is the unit-circle exponential, and `dftC` is the
textbook discrete Fourier transform written over `ℂ`.  All correctness
arguments are carried out there and transported back. -/

/-- Reinterpret the `{re, im}` record as a Mathlib complex number. -/
noncomputable def toC (z : Complex) : ℂ := (⟨z.re, z.im⟩ : ℂ)

@[simp] theorem toC_re (z : Complex) : (toC z).re = z.re := rfl

@[simp] theorem toC_im (z : Complex) : (toC z).im = z.im := rfl

theorem toC_inj {z w : Complex} (h : toC z = toC w) : z = w := by
  have hre : (toC z).re = (toC w).re := by rw [h]
  have him : (toC z).im = (toC w).im := by rw [h]
  rw [toC_re, toC_re] at hre
  rw [toC_im, toC_im] at him
  cases z
  cases w
  simp_all

/-- The value `exp (x * I)`, the point of the unit circle at angle `x`. -/
noncomputable def cexp (x : ℝ) : ℂ := Complex.exp ((x : ℂ) * Complex.I)

@[simp] theorem cexp_re (x : ℝ) : (cexp x).re = Real.cos x :=
  Complex.exp_ofReal_mul_I_re x

@[simp] theorem cexp_im (x : ℝ) : (cexp x).im = Real.sin x :=
  Complex.exp_ofReal_mul_I_im x

theorem cexp_add (x y : ℝ) : cexp (x + y) = cexp x * cexp y := by
  unfold cexp
  rw [← Complex.exp_add]
  congr 1
  push_cast
  ring

theorem cexp_zero : cexp 0 = 1 := by simp [cexp]

theorem cexp_neg_two_pi_nat (j : ℕ) : cexp (-(2 * Real.pi * j)) = 1 := by
  have h := Complex.exp_int_mul_two_pi_mul_I (-(j : ℤ))
  rw [cexp, ← h]
  congr 1
  push_cast
  ring

theorem cexp_sub_two_pi_nat (x : ℝ) (j : ℕ) : cexp (x - 2 * Real.pi * j) = cexp x := by
  rw [sub_eq_add_neg, cexp_add, cexp_neg_two_pi_nat, mul_one]

theorem cexp_neg_pi : cexp (-Real.pi) = -1 := by
  have h : ((-Real.pi : ℝ) : ℂ) * Complex.I = -(Real.pi * Complex.I) := by
    push_cast
    ring
  rw [cexp, h, Complex.exp_neg, Complex.exp_pi_mul_I]
  norm_num

theorem cexp_sub_pi (x : ℝ) : cexp (x - Real.pi) = -cexp x := by
  rw [sub_eq_add_neg, cexp_add, cexp_neg_pi, mul_neg_one]

theorem cexp_conj (x : ℝ) : (starRingEnd ℂ) (cexp x) = cexp (-x) := by
  rw [cexp, ← Complex.exp_conj, map_mul, Complex.conj_I, Complex.conj_ofReal, cexp]
  congr 1
  push_cast
  ring

/-- The textbook negative-exponent discrete Fourier transform of a real
sequence, over `ℂ`: bin `k` is `Σ_t input[t] · exp(-(2πkt/N)·I)`. -/
noncomputable def dftC (input : List ℝ) (k : ℕ) : ℂ :=
  ∑ t ∈ Finset.range input.length,
    (input.getD t 0 : ℂ) * cexp (-((2 * Real.pi * (k : ℝ) * (t : ℝ)) / (input.length : ℝ)))

theorem getD_eq_getElem {α : Type} (l : List α) (k : ℕ) (d : α) (h : k < l.length) :
    l.getD k d = l[k] := by
  simp [List.getD_eq_getElem?_getD, List.getElem?_eq_getElem h]

theorem dft_length (input : List ℝ) : (dft input).length = input.length := by
  simp [dft]

theorem toC_dft (input : List ℝ) (k : ℕ) (hk : k < input.length) (d : Complex) :
    toC ((dft input).getD k d) = dftC input k := by
  have hk' : k < (dft input).length := by rwa [dft_length]
  rw [getD_eq_getElem _ _ _ hk']
  unfold dft dftC
  apply Complex.ext
  · simp only [List.getElem_map, List.getElem_range, toC_re, Complex.re_sum,
      Complex.mul_re, Complex.ofReal_re, Complex.ofReal_im, cexp_re, cexp_im,
      Real.cos_neg, Real.sin_neg]
    exact Finset.sum_congr rfl fun t _ => by ring
  · simp only [List.getElem_map, List.getElem_range, toC_im, Complex.im_sum,
      Complex.mul_im, Complex.ofReal_re, Complex.ofReal_im, cexp_re, cexp_im,
      Real.cos_neg, Real.sin_neg, ← Finset.sum_neg_distrib]
    exact Finset.sum_congr rfl fun t _ => by ring

theorem sum_range_even_odd {M : Type} [AddCommMonoid M] (m : ℕ) (f : ℕ → M) :
    ∑ t ∈ Finset.range (2 * m), f t
      = ∑ j ∈ Finset.range m, f (2 * j) + ∑ j ∈ Finset.range m, f (2 * j + 1) := by
  induction m with
  | zero => simp
  | succ m ih =>
      have h2 : 2 * (m + 1) = 2 * m + 1 + 1 := by omega
      rw [h2, Finset.sum_range_succ, Finset.sum_range_succ, ih,
        Finset.sum_range_succ, Finset.sum_range_succ]
      abel

theorem dftC_evenIdx (input : List ℝ) (m k : ℕ) (hlen : input.length = 2 * m) :
    dftC (evenIdx input) k
      = ∑ j ∈ Finset.range m,
          (input.getD (2 * j) 0 : ℂ)
            * cexp (-((2 * Real.pi * (k : ℝ) * (j : ℝ)) / (m : ℝ))) := by
  unfold dftC
  have hl : (evenIdx input).length = m := by
    rw [evenIdx_length, hlen]
    omega
  rw [hl]
  exact Finset.sum_congr rfl fun j _ => by rw [evenIdx_getD]

theorem dftC_oddIdx (input : List ℝ) (m k : ℕ) (hlen : input.length = 2 * m) :
    dftC (oddIdx input) k
      = ∑ j ∈ Finset.range m,
          (input.getD (2 * j + 1) 0 : ℂ)
            * cexp (-((2 * Real.pi * (k : ℝ) * (j : ℝ)) / (m : ℝ))) := by
  unfold dftC
  have hl : (oddIdx input).length = m := by
    rw [oddIdx_length, hlen]
    omega
  rw [hl]
  exact Finset.sum_congr rfl fun j _ => by rw [oddIdx_getD]

theorem dftC_butterfly_lo (input : List ℝ) (m k : ℕ) (hm : 1 ≤ m)
    (hlen : input.length = 2 * m) :
    dftC input k
      = dftC (evenIdx input) k
        + cexp (-((2 * Real.pi * (k : ℝ)) / (input.length : ℝ))) * dftC (oddIdx input) k := by
  have hm' : (m : ℝ) ≠ 0 := Nat.cast_ne_zero.mpr (by omega)
  rw [dftC_evenIdx input m k hlen, dftC_oddIdx input m k hlen]
  unfold dftC
  rw [hlen, sum_range_even_odd]
  congr 1
  · refine Finset.sum_congr rfl fun j _ => ?_
    congr 2
    push_cast
    field_simp
    ring
  · rw [Finset.mul_sum]
    refine Finset.sum_congr rfl fun j _ => ?_
    have hangle : -((2 * Real.pi * (k : ℝ) * ((2 * j + 1 : ℕ) : ℝ)) / (((2 * m : ℕ) : ℕ) : ℝ))
        = -((2 * Real.pi * (k : ℝ)) / (((2 * m : ℕ) : ℕ) : ℝ))
          + -((2 * Real.pi * (k : ℝ) * (j : ℝ)) / (m : ℝ)) := by
      push_cast
      field_simp
      ring
    rw [hangle, cexp_add]
    ring

theorem dftC_butterfly_hi (input : List ℝ) (m k : ℕ) (hm : 1 ≤ m)
    (hlen : input.length = 2 * m) :
    dftC input (k + m)
      = dftC (evenIdx input) k
        - cexp (-((2 * Real.pi * (k : ℝ)) / (input.length : ℝ))) * dftC (oddIdx input) k := by
  have hm' : (m : ℝ) ≠ 0 := Nat.cast_ne_zero.mpr (by omega)
  rw [dftC_evenIdx input m k hlen, dftC_oddIdx input m k hlen]
  unfold dftC
  rw [hlen, sum_range_even_odd]
  rw [sub_eq_add_neg]
  congr 1
  · refine Finset.sum_congr rfl fun j _ => ?_
    have hangle : -((2 * Real.pi * ((k + m : ℕ) : ℝ) * ((2 * j : ℕ) : ℝ)) / (((2 * m : ℕ) : ℕ) : ℝ))
        = -((2 * Real.pi * (k : ℝ) * (j : ℝ)) / (m : ℝ)) - 2 * Real.pi * (j : ℝ) := by
      push_cast
      field_simp
      ring
    rw [hangle, cexp_sub_two_pi_nat]
  · rw [Finset.mul_sum, ← Finset.sum_neg_distrib]
    refine Finset.sum_congr rfl fun j _ => ?_
    have hangle : -((2 * Real.pi * ((k + m : ℕ) : ℝ) * ((2 * j + 1 : ℕ) : ℝ)) / (((2 * m : ℕ) : ℕ) : ℝ))
        = ((-((2 * Real.pi * (k : ℝ)) / (((2 * m : ℕ) : ℕ) : ℝ))
            + -((2 * Real.pi * (k : ℝ) * (j : ℝ)) / (m : ℝ))) - 2 * Real.pi * (j : ℝ)) - Real.pi := by
      push_cast
      field_simp
      ring
    rw [hangle, cexp_sub_pi, cexp_sub_two_pi_nat, cexp_add]
    ring

/-- A length that passes the source's power-of-two test `(n & (n-1)) === 0`
and is at least `2` must be even. -/
theorem even_of_and_pred_eq_zero (n : ℕ) (h2 : 2 ≤ n) (h : n &&& (n - 1) = 0) :
    n % 2 = 0 := by
  by_contra hodd
  have h1 : n % 2 = 1 := by omega
  have hq : n = 2 * (n / 2) + 1 := by omega
  set q := n / 2 with hqdef
  have hq1 : 1 ≤ q := by omega
  have hand : (2 * q + 1) &&& (2 * q) = 2 * q := by
    apply Nat.eq_of_testBit_eq
    intro i
    rw [Nat.testBit_land]
    cases i with
    | zero =>
        rw [Nat.testBit_zero, Nat.testBit_zero]
        have : 2 * q % 2 = 0 := by omega
        simp [this]
    | succ i =>
        rw [Nat.testBit_add_one, Nat.testBit_add_one]
        have e1 : (2 * q + 1) / 2 = q := by omega
        have e2 : 2 * q / 2 = q := by omega
        rw [e1, e2, Bool.and_self]
  rw [hq] at h
  have : 2 * q + 1 - 1 = 2 * q := by omega
  rw [this, hand] at h
  omega

theorem getD_append_left {α : Type} (l₁ l₂ : List α) (k : ℕ) (d : α) (h : k < l₁.length) :
    (l₁ ++ l₂).getD k d = l₁.getD k d := by
  have h' : k < (l₁ ++ l₂).length := by simp; omega
  rw [getD_eq_getElem _ _ _ h', getD_eq_getElem _ _ _ h, List.getElem_append_left h]

theorem getD_append_right {α : Type} (l₁ l₂ : List α) (k : ℕ) (d : α)
    (h1 : l₁.length ≤ k) (h2 : k < l₁.length + l₂.length) :
    (l₁ ++ l₂).getD k d = l₂.getD (k - l₁.length) d := by
  have h' : k < (l₁ ++ l₂).length := by simp; omega
  have h'' : k - l₁.length < l₂.length := by omega
  rw [getD_eq_getElem _ _ _ h', getD_eq_getElem _ _ _ h'',
    List.getElem_append_right h1]

theorem getD_map_range {α : Type} (f : ℕ → α) (n k : ℕ) (h : k < n) (d : α) :
    ((List.range n).map f).getD k d = f k := by
  have h' : k < ((List.range n).map f).length := by simp [h]
  rw [getD_eq_getElem _ _ _ h']
  simp

theorem fft_of_le_one (input : List ℝ) (h : input.length ≤ 1) :
    fft input = [{ re := input.getD 0 0, im := 0 }] := by
  unfold fft
  rw [if_pos h]

theorem fft_of_not_pow (input : List ℝ) (h1 : ¬ input.length ≤ 1)
    (h2 : input.length &&& (input.length - 1) ≠ 0) :
    fft input = dft input := by
  unfold fft
  rw [if_neg h1, if_pos h2]

theorem fft_fast (input : List ℝ) (h1 : ¬ input.length ≤ 1)
    (h2 : ¬ input.length &&& (input.length - 1) ≠ 0) :
    fft input
      = ((List.range (input.length / 2)).map fun (k : ℕ) =>
          let w : Complex := { re := Real.cos ((-2 * Real.pi * (k : ℝ)) / (input.length : ℝ)),
                               im := Real.sin ((-2 * Real.pi * (k : ℝ)) / (input.length : ℝ)) }
          let oddK := (fft (oddIdx input)).getD k ⟨0, 0⟩
          let evenK := (fft (evenIdx input)).getD k ⟨0, 0⟩
          let oddW : Complex := { re := oddK.re * w.re - oddK.im * w.im,
                                  im := oddK.re * w.im + oddK.im * w.re }
          ({ re := evenK.re + oddW.re, im := evenK.im + oddW.im } : Complex))
      ++ ((List.range (input.length / 2)).map fun (k : ℕ) =>
          let w : Complex := { re := Real.cos ((-2 * Real.pi * (k : ℝ)) / (input.length : ℝ)),
                               im := Real.sin ((-2 * Real.pi * (k : ℝ)) / (input.length : ℝ)) }
          let oddK := (fft (oddIdx input)).getD k ⟨0, 0⟩
          let evenK := (fft (evenIdx input)).getD k ⟨0, 0⟩
          let oddW : Complex := { re := oddK.re * w.re - oddK.im * w.im,
                                  im := oddK.re * w.im + oddK.im * w.re }
          ({ re := evenK.re - oddW.re, im := evenK.im - oddW.im } : Complex)) := by
  conv_lhs => rw [fft.eq_def]
  rw [if_neg h1, if_neg h2]

theorem toC_butterfly_add (even odd : List Complex) (k len : ℕ) (E O : ℂ)
    (hE : toC (even.getD k ⟨0, 0⟩) = E) (hO : toC (odd.getD k ⟨0, 0⟩) = O) :
    toC
      (let w : Complex := { re := Real.cos ((-2 * Real.pi * (k : ℝ)) / (len : ℝ)),
                            im := Real.sin ((-2 * Real.pi * (k : ℝ)) / (len : ℝ)) }
       let oddK := odd.getD k ⟨0, 0⟩
       let evenK := even.getD k ⟨0, 0⟩
       let oddW : Complex := { re := oddK.re * w.re - oddK.im * w.im,
                               im := oddK.re * w.im + oddK.im * w.re }
       ({ re := evenK.re + oddW.re, im := evenK.im + oddW.im } : Complex))
      = E + cexp (-((2 * Real.pi * (k : ℝ)) / (len : ℝ))) * O := by
  have harg : ((-2 * Real.pi * (k : ℝ)) / (len : ℝ)) = -((2 * Real.pi * (k : ℝ)) / (len : ℝ)) := by
    ring
  apply Complex.ext
  · simp only [toC_re, Complex.add_re, Complex.mul_re, cexp_re, cexp_im, ← hE, ← hO, toC_im,
      harg]
    ring
  · simp only [toC_im, Complex.add_im, Complex.mul_im, cexp_re, cexp_im, ← hE, ← hO, toC_re,
      harg]
    ring

theorem toC_butterfly_sub (even odd : List Complex) (k len : ℕ) (E O : ℂ)
    (hE : toC (even.getD k ⟨0, 0⟩) = E) (hO : toC (odd.getD k ⟨0, 0⟩) = O) :
    toC
      (let w : Complex := { re := Real.cos ((-2 * Real.pi * (k : ℝ)) / (len : ℝ)),
                            im := Real.sin ((-2 * Real.pi * (k : ℝ)) / (len : ℝ)) }
       let oddK := odd.getD k ⟨0, 0⟩
       let evenK := even.getD k ⟨0, 0⟩
       let oddW : Complex := { re := oddK.re * w.re - oddK.im * w.im,
                               im := oddK.re * w.im + oddK.im * w.re }
       ({ re := evenK.re - oddW.re, im := evenK.im - oddW.im } : Complex))
      = E - cexp (-((2 * Real.pi * (k : ℝ)) / (len : ℝ))) * O := by
  have harg : ((-2 * Real.pi * (k : ℝ)) / (len : ℝ)) = -((2 * Real.pi * (k : ℝ)) / (len : ℝ)) := by
    ring
  apply Complex.ext
  · simp only [toC_re, Complex.sub_re, Complex.mul_re, cexp_re, cexp_im, ← hE, ← hO, toC_im,
      harg]
    ring
  · simp only [toC_im, Complex.sub_im, Complex.mul_im, cexp_re, cexp_im, ← hE, ← hO, toC_re,
      harg]
    ring

/-- Main transform correctness: for every non-empty input, `fft` has the
length of its input and every bin agrees (through `toC`) with the textbook
discrete Fourier transform `dftC`, on both the radix-2 path and the direct
fallback path. -/
theorem fft_spec : ∀ (N : ℕ) (input : List ℝ), input.length = N → 1 ≤ N →
    (fft input).length = N ∧
      ∀ k, k < N → toC ((fft input).getD k ⟨0, 0⟩) = dftC input k := by
  intro N
  induction N using Nat.strong_induction_on with
  | _ N ih =>
    intro input hlen hN
    by_cases h1 : input.length ≤ 1
    · have hN1 : N = 1 := by omega
      rw [fft_of_le_one input h1]
      refine ⟨by simp [hN1], ?_⟩
      intro k hk
      have hk0 : k = 0 := by omega
      subst hk0
      unfold dftC
      rw [hlen, hN1, Finset.sum_range_one]
      apply Complex.ext
      · norm_num [cexp_zero, List.getD]
      · norm_num [cexp_zero, List.getD]
    · by_cases h2 : input.length &&& (input.length - 1) ≠ 0
      · rw [fft_of_not_pow input h1 h2]
        refine ⟨by rw [dft_length, hlen], ?_⟩
        intro k hk
        exact toC_dft input k (by omega) _
      · have hand : input.length &&& (input.length - 1) = 0 := not_ne_iff.mp h2
        have hge2 : 2 ≤ input.length := by omega
        have heven := even_of_and_pred_eq_zero input.length hge2 hand
        obtain ⟨m, h2m⟩ : ∃ m, input.length = 2 * m := ⟨input.length / 2, by omega⟩
        have hm1 : 1 ≤ m := by omega
        have he : (evenIdx input).length = m := by rw [evenIdx_length]; omega
        have ho : (oddIdx input).length = m := by rw [oddIdx_length]; omega
        have IHe := ih m (by omega) (evenIdx input) he hm1
        have IHo := ih m (by omega) (oddIdx input) ho hm1
        have hhalf : input.length / 2 = m := by omega
        rw [fft_fast input h1 h2]
        constructor
        · simp only [List.length_append, List.length_map, List.length_range, hhalf]
          omega
        · intro k hk
          by_cases hkm : k < m
          · rw [getD_append_left _ _ _ _
              (by simp only [List.length_map, List.length_range, hhalf]; omega)]
            rw [hhalf, getD_map_range _ _ _ hkm]
            rw [dftC_butterfly_lo input m k hm1 h2m]
            exact toC_butterfly_add _ _ _ _ _ _ (IHe.2 k hkm) (IHo.2 k hkm)
          · rw [getD_append_right _ _ _ _
              (by simp only [List.length_map, List.length_range, hhalf]; omega)
              (by simp only [List.length_append, List.length_map, List.length_range, hhalf]
                  omega)]
            simp only [List.length_map, List.length_range, hhalf]
            have hk' : k - m < m := by omega
            rw [getD_map_range _ _ _ hk']
            have hgoal := dftC_butterfly_hi input m (k - m) hm1 h2m
            have hkk : k - m + m = k := by omega
            rw [hkk] at hgoal
            rw [hgoal]
            exact toC_butterfly_sub _ _ _ _ _ _ (IHe.2 (k - m) hk') (IHo.2 (k - m) hk')

theorem getD_map_range' {α : Type} (f : ℕ → α) (c j : ℕ) (h : j < c) (d : α) :
    ((List.range' 1 c).map f).getD j d = f (1 + j) := by
  have h' : j < ((List.range' 1 c).map f).length := by simp [h]
  rw [getD_eq_getElem _ _ _ h']
  simp [List.getElem_range'_1]

/-- The real part of `dftC` is the cosine sum accumulated by `dft`. -/
theorem dftC_re (input : List ℝ) (k : ℕ) :
    (dftC input k).re
      = ∑ t ∈ Finset.range input.length,
          input.getD t 0 * Real.cos ((2 * Real.pi * (k : ℝ) * (t : ℝ)) / (input.length : ℝ)) := by
  unfold dftC
  rw [Complex.re_sum]
  refine Finset.sum_congr rfl fun t _ => ?_
  simp only [Complex.mul_re, Complex.ofReal_re, Complex.ofReal_im, cexp_re, cexp_im,
    Real.cos_neg, Real.sin_neg]
  ring

/-- The imaginary part of `dftC` is the negated sine sum accumulated by `dft`. -/
theorem dftC_im (input : List ℝ) (k : ℕ) :
    (dftC input k).im
      = -∑ t ∈ Finset.range input.length,
          input.getD t 0 * Real.sin ((2 * Real.pi * (k : ℝ) * (t : ℝ)) / (input.length : ℝ)) := by
  unfold dftC
  rw [Complex.im_sum, ← Finset.sum_neg_distrib]
  refine Finset.sum_congr rfl fun t _ => ?_
  simp only [Complex.mul_im, Complex.ofReal_re, Complex.ofReal_im, cexp_re, cexp_im,
    Real.cos_neg, Real.sin_neg]
  ring

/-- Mirror-bin identity for the textbook transform: bin `N - k` is the
complex conjugate of bin `k`. -/
theorem dftC_reflect (input : List ℝ) (k : ℕ) (hk : k ≤ input.length) :
    dftC input (input.length - k) = (starRingEnd ℂ) (dftC input k) := by
  unfold dftC
  rw [map_sum]
  refine Finset.sum_congr rfl fun t ht => ?_
  rw [map_mul, Complex.conj_ofReal, cexp_conj]
  congr 1
  have hmem : t < input.length := Finset.mem_range.mp ht
  have hlen0 : (input.length : ℝ) ≠ 0 := Nat.cast_ne_zero.mpr (by omega)
  have hangle : -((2 * Real.pi * ((input.length - k : ℕ) : ℝ) * (t : ℝ)) / (input.length : ℝ))
      = -(-((2 * Real.pi * (k : ℝ) * (t : ℝ)) / (input.length : ℝ))) - 2 * Real.pi * (t : ℝ) := by
    rw [Nat.cast_sub hk]
    field_simp
    ring
  rw [hangle, cexp_sub_two_pi_nat]

/-- The record `getFrequencyComponents` builds for loop index `k`
(for an in-bounds `k`, where the `!bin` skip never fires). -/
noncomputable def componentAt (s : List Complex) (k : ℕ) : FrequencyComponent :=
  let bin := s.getD k ⟨0, 0⟩
  let amplitude := Real.sqrt (bin.re * bin.re + bin.im * bin.im) * 2 / (s.length : ℝ)
  let phase := atan2 bin.im bin.re
  { frequency := k, amplitude := amplitude, phase := phase,
    signal := (List.range s.length).map fun (i : ℕ) =>
      amplitude * Real.cos ((2 * Real.pi * (k : ℝ) * (i : ℝ)) / (s.length : ℝ) + phase) }

/-- Every loop index of `getFrequencyComponents` is in bounds, so the
`filterMap` (the `continue` on an absent bin) never skips: the output is
exactly one record per `k ∈ [1, half)`. -/
theorem gfc_eq_map (s : List Complex) (n : ℤ) :
    getFrequencyComponents s n
      = (List.range' 1 (s.length / 2 - 1)).map (componentAt s) := by
  unfold getFrequencyComponents
  by_cases hs : s.length = 0
  · rw [if_pos hs, hs]
    rfl
  · rw [if_neg hs]
    refine (List.filterMap_congr ?_).trans
      (congrFun (List.filterMap_eq_map (componentAt s)) _)
    intro k hkmem
    have hk : k < s.length := by
      have := List.mem_range'_1.mp hkmem
      omega
    rw [List.getElem?_eq_getElem hk]
    show some _ = some _
    congr 1
    unfold componentAt
    rw [getD_eq_getElem _ _ _ hk]

theorem gfc_length (s : List Complex) (n : ℤ) :
    (getFrequencyComponents s n).length = s.length / 2 - 1 := by
  rw [gfc_eq_map]
  simp

theorem gfc_getD (s : List Complex) (n : ℤ) (j : ℕ)
    (hj : j < (getFrequencyComponents s n).length) (d : FrequencyComponent) :
    (getFrequencyComponents s n).getD j d = componentAt s (1 + j) := by
  rw [gfc_length] at hj
  rw [gfc_eq_map]
  exact getD_map_range' (componentAt s) _ j hj d

/-! ### Claim theorems -/

/-- C1: for every input of length `N ≥ 1`, `fft` returns `N` complex bins,
and bin `k` is the negative-exponent discrete Fourier transform — real part
`Σ_t input[t]·cos(2πkt/N)`, imaginary part `-Σ_t input[t]·sin(2πkt/N)` —
regardless of whether the radix-2 fast path or the `dft` fallback ran. -/
theorem fft_computes_dft (input : List ℝ) (h : 1 ≤ input.length) :
    (fft input).length = input.length ∧
      ∀ k, k < input.length →
        ((fft input).getD k ⟨0, 0⟩).re
            = ∑ t ∈ Finset.range input.length,
                input.getD t 0 * Real.cos ((2 * Real.pi * (k : ℝ) * (t : ℝ)) / (input.length : ℝ))
          ∧ ((fft input).getD k ⟨0, 0⟩).im
            = -∑ t ∈ Finset.range input.length,
                input.getD t 0 * Real.sin ((2 * Real.pi * (k : ℝ) * (t : ℝ)) / (input.length : ℝ)) := by
  obtain ⟨hlen, hbins⟩ := fft_spec input.length input rfl h
  refine ⟨hlen, fun k hk => ?_⟩
  have hb := hbins k hk
  constructor
  · have hre : (toC ((fft input).getD k ⟨0, 0⟩)).re = (dftC input k).re := by rw [hb]
    rw [toC_re] at hre
    rw [hre, dftC_re]
  · have him : (toC ((fft input).getD k ⟨0, 0⟩)).im = (dftC input k).im := by rw [hb]
    rw [toC_im] at him
    rw [him, dftC_im]

theorem fft_computes_dft_witness :
    1 ≤ [(1 : ℝ), 2, 3].length ∧ (fft [(1 : ℝ), 2, 3]).length = [(1 : ℝ), 2, 3].length :=
  ⟨by decide, (fft_computes_dft [(1 : ℝ), 2, 3] (by decide)).1⟩

/-- C5: for inputs whose length is a power of two `2^m` with `m ≥ 1`, the
recursive radix-2 fast path of `fft` and the direct quadratic `dft` produce
the same spectrum, bin for bin (exact equality over exact reals). -/
theorem fft_eq_dft_pow (input : List ℝ) (m : ℕ) (hm : 1 ≤ m)
    (hlen : input.length = 2 ^ m) :
    fft input = dft input := by
  have hN : 1 ≤ input.length := by
    rw [hlen]
    exact Nat.one_le_two_pow
  obtain ⟨hflen, hfbins⟩ := fft_spec input.length input rfl hN
  have hdlen : (dft input).length = input.length := dft_length input
  apply List.ext_getElem (by rw [hflen, hdlen])
  intro i h1 h2
  apply toC_inj
  have hi : i < input.length := by rwa [hflen] at h1
  rw [← getD_eq_getElem _ _ ⟨0, 0⟩ h1, ← getD_eq_getElem _ _ ⟨0, 0⟩ h2]
  rw [hfbins i hi, toC_dft input i hi]

theorem fft_eq_dft_pow_witness :
    1 ≤ 1 ∧ fft [(1 : ℝ), 2] = dft [(1 : ℝ), 2] :=
  ⟨by decide, fft_eq_dft_pow [(1 : ℝ), 2] 1 (by decide) (by decide)⟩

/-- C6: `fft` returns a sequence of length `N` for every `N ≥ 1`; for the
empty input it returns `[(0, 0)]`; for a single sample it returns
`[(sample[0], 0)]`. -/
theorem fft_degenerate_lengths (input : List ℝ) :
    (1 ≤ input.length → (fft input).length = input.length) ∧
      (input.length = 0 → fft input = [{ re := 0, im := 0 }]) ∧
      ∀ x : ℝ, input = [x] → fft input = [{ re := x, im := 0 }] := by
  refine ⟨fun h => (fft_spec input.length input rfl h).1, fun h0 => ?_, fun x hx => ?_⟩
  · have hnil : input = [] := List.length_eq_zero.mp h0
    subst hnil
    rw [fft_of_le_one _ (by simp)]
    simp [List.getD]
  · subst hx
    rw [fft_of_le_one _ (by simp)]
    simp [List.getD]

theorem fft_degenerate_lengths_witness :
    (fft [(5 : ℝ)]).length = [(5 : ℝ)].length ∧
      fft ([] : List ℝ) = [{ re := 0, im := 0 }] ∧
      fft [(5 : ℝ)] = [{ re := 5, im := 0 }] :=
  ⟨(fft_degenerate_lengths [(5 : ℝ)]).1 (by decide),
   (fft_degenerate_lengths ([] : List ℝ)).2.1 rfl,
   (fft_degenerate_lengths [(5 : ℝ)]).2.2 5 rfl⟩

/-- C7: Hermitian symmetry — for every real input and every `1 ≤ k < N`,
bin `N - k` is the complex conjugate of bin `k`: equal real parts and
negated imaginary parts. -/
theorem fft_hermitian (input : List ℝ) (k : ℕ) (h1 : 1 ≤ k) (hk : k < input.length) :
    ((fft input).getD (input.length - k) ⟨0, 0⟩).re = ((fft input).getD k ⟨0, 0⟩).re ∧
      ((fft input).getD (input.length - k) ⟨0, 0⟩).im = -((fft input).getD k ⟨0, 0⟩).im := by
  have hN : 1 ≤ input.length := by omega
  obtain ⟨_, hbins⟩ := fft_spec input.length input rfl hN
  have hk2 : input.length - k < input.length := by omega
  have ha := hbins (input.length - k) hk2
  have hb := hbins k hk
  rw [dftC_reflect input k hk.le] at ha
  constructor
  · have h1' : (toC ((fft input).getD (input.length - k) ⟨0, 0⟩)).re
        = ((starRingEnd ℂ) (dftC input k)).re := by rw [ha]
    rw [toC_re, Complex.conj_re] at h1'
    have h2' : (toC ((fft input).getD k ⟨0, 0⟩)).re = (dftC input k).re := by rw [hb]
    rw [toC_re] at h2'
    rw [h1', h2']
  · have h1' : (toC ((fft input).getD (input.length - k) ⟨0, 0⟩)).im
        = ((starRingEnd ℂ) (dftC input k)).im := by rw [ha]
    rw [toC_im, Complex.conj_im] at h1'
    have h2' : (toC ((fft input).getD k ⟨0, 0⟩)).im = (dftC input k).im := by rw [hb]
    rw [toC_im] at h2'
    rw [h1', h2']

theorem fft_hermitian_witness :
    ((fft [(1 : ℝ), 2, 3, 4]).getD ([(1 : ℝ), 2, 3, 4].length - 1) ⟨0, 0⟩).re
        = ((fft [(1 : ℝ), 2, 3, 4]).getD 1 ⟨0, 0⟩).re ∧
      ((fft [(1 : ℝ), 2, 3, 4]).getD ([(1 : ℝ), 2, 3, 4].length - 1) ⟨0, 0⟩).im
        = -((fft [(1 : ℝ), 2, 3, 4]).getD 1 ⟨0, 0⟩).im :=
  fft_hermitian [(1 : ℝ), 2, 3, 4] 1 (by decide) (by decide)

/-- C9: in the butterfly combine for a power-of-two input (`N = 2^m`,
`m ≥ 1`), both recursive results have length exactly `N / 2`, so for every
`k < N / 2` the accesses `even[k]` and `odd[k]` are in bounds and the
`|| {re:0,im:0}` fallbacks are dead code: the value of `getD` does not
depend on its default. -/
theorem fft_butterfly_safe (input : List ℝ) (m : ℕ) (hm : 1 ≤ m)
    (hlen : input.length = 2 ^ m) :
    (fft (evenIdx input)).length = input.length / 2 ∧
      (fft (oddIdx input)).length = input.length / 2 ∧
      ∀ k, k < input.length / 2 → ∀ d₁ d₂ : Complex,
        (fft (evenIdx input)).getD k d₁ = (fft (evenIdx input)).getD k d₂ ∧
        (fft (oddIdx input)).getD k d₁ = (fft (oddIdx input)).getD k d₂ := by
  obtain ⟨q, hq⟩ : ∃ q, input.length = 2 * q := by
    refine ⟨2 ^ (m - 1), ?_⟩
    have hm' : m - 1 + 1 = m := by omega
    have h := pow_succ 2 (m - 1)
    rw [hm'] at h
    rw [hlen]
    omega
  have hq1 : 1 ≤ q := by
    have h2 : 2 ^ 1 ≤ 2 ^ m := Nat.pow_le_pow_right (by norm_num) hm
    omega
  have he : (evenIdx input).length = q := by rw [evenIdx_length]; omega
  have ho : (oddIdx input).length = q := by rw [oddIdx_length]; omega
  have hhalf : input.length / 2 = q := by omega
  have hE := (fft_spec q (evenIdx input) he hq1).1
  have hO := (fft_spec q (oddIdx input) ho hq1).1
  refine ⟨by rw [hE, hhalf], by rw [hO, hhalf], fun k hk d₁ d₂ => ?_⟩
  constructor
  · rw [getD_eq_getElem _ _ _ (by rw [hE]; omega), getD_eq_getElem _ _ _ (by rw [hE]; omega)]
  · rw [getD_eq_getElem _ _ _ (by rw [hO]; omega), getD_eq_getElem _ _ _ (by rw [hO]; omega)]

theorem fft_butterfly_safe_witness :
    (fft (evenIdx [(1 : ℝ), 2])).length = [(1 : ℝ), 2].length / 2 ∧
      (fft (oddIdx [(1 : ℝ), 2])).length = [(1 : ℝ), 2].length / 2 ∧
      ∀ k, k < [(1 : ℝ), 2].length / 2 → ∀ d₁ d₂ : Complex,
        (fft (evenIdx [(1 : ℝ), 2])).getD k d₁ = (fft (evenIdx [(1 : ℝ), 2])).getD k d₂ ∧
        (fft (oddIdx [(1 : ℝ), 2])).getD k d₁ = (fft (oddIdx [(1 : ℝ), 2])).getD k d₂ :=
  fft_butterfly_safe [(1 : ℝ), 2] 1 (by decide) (by decide)

/-- C10: `getFrequencyComponents` does not depend on its `sampleCount`
argument at all — the source declares `n` but never reads it; loop bound,
normalization, signal length and synthesis angle all come from the
spectrum's own length. -/
theorem gfc_ignores_sample_count (s : List Complex) (n₁ n₂ : ℤ) :
    getFrequencyComponents s n₁ = getFrequencyComponents s n₂ := rfl

/-- C2 counterexample: with a non-empty spectrum of length 4 and
`sampleCount = 0 ≤ 0`, `getFrequencyComponents` emits a record rather than
the empty sequence the claim demands. -/
theorem gfc_nonpositive_count_cex :
    getFrequencyComponents [({ re := 1, im := 0 } : Complex), ⟨1, 0⟩, ⟨1, 0⟩, ⟨1, 0⟩] 0 ≠ [] := by
  intro hc
  have h := gfc_length [({ re := 1, im := 0 } : Complex), ⟨1, 0⟩, ⟨1, 0⟩, ⟨1, 0⟩] 0
  rw [hc] at h
  simp at h

/-- C2 amended: `getFrequencyComponents` ignores `sampleCount`; for
`sampleCount ≤ 0` (as for any other value) the output is empty exactly when
the spectrum has fewer than 4 entries — emptiness is decided by the
spectrum's own length, not by the sample count. -/
theorem gfc_nonpositive_count (s : List Complex) (n : ℤ) (hn : n ≤ 0) :
    getFrequencyComponents s n = [] ↔ s.length < 4 := by
  rw [← List.length_eq_zero, gfc_length]
  omega

theorem gfc_nonpositive_count_witness :
    (getFrequencyComponents ([] : List Complex) (-1) = []
      ↔ ([] : List Complex).length < 4) :=
  gfc_nonpositive_count ([] : List Complex) (-1) (by decide)

/-- C3 counterexample: a spectrum of length 4 with `sampleCount = 5` emits a
record whose synthesized signal has 4 points (the spectrum length), not the
5 points (`sampleCount`) the claim demands. -/
theorem gfc_signal_length_cex :
    0 < (getFrequencyComponents
          [({ re := 0, im := 0 } : Complex), ⟨1, 0⟩, ⟨0, 0⟩, ⟨0, 0⟩] 5).length ∧
      ((getFrequencyComponents
          [({ re := 0, im := 0 } : Complex), ⟨1, 0⟩, ⟨0, 0⟩, ⟨0, 0⟩] 5).getD 0
            ⟨0, 0, 0, []⟩).signal.length = 4 ∧
      (4 : ℕ) ≠ 5 := by
  have hj : 0 < (getFrequencyComponents
      [({ re := 0, im := 0 } : Complex), ⟨1, 0⟩, ⟨0, 0⟩, ⟨0, 0⟩] 5).length := by
    rw [gfc_length]
    decide
  refine ⟨hj, ?_, by decide⟩
  rw [gfc_getD _ _ _ hj]
  unfold componentAt
  simp

/-- C3 amended: each record emitted by `getFrequencyComponents` carries a
signal of exactly `M` points, `M` being the spectrum length (not the
`sampleCount` argument), with `signal[i] = amplitude · cos(2π·k·i/M + phase)`
for the record's frequency `k`. -/
theorem gfc_signal_spec (s : List Complex) (n : ℤ) (j : ℕ)
    (hj : j < (getFrequencyComponents s n).length) :
    ((getFrequencyComponents s n).getD j ⟨0, 0, 0, []⟩).signal.length = s.length ∧
      ∀ i, i < s.length →
        ((getFrequencyComponents s n).getD j ⟨0, 0, 0, []⟩).signal.getD i 0
          = ((getFrequencyComponents s n).getD j ⟨0, 0, 0, []⟩).amplitude
              * Real.cos ((2 * Real.pi
                    * ((((getFrequencyComponents s n).getD j ⟨0, 0, 0, []⟩).frequency : ℕ) : ℝ)
                    * (i : ℝ)) / (s.length : ℝ)
                  + ((getFrequencyComponents s n).getD j ⟨0, 0, 0, []⟩).phase) := by
  rw [gfc_getD s n j hj]
  unfold componentAt
  constructor
  · simp
  · intro i hi
    dsimp only
    rw [getD_map_range _ _ _ hi]

theorem gfc_signal_spec_witness :
    0 < (getFrequencyComponents
          [({ re := 0, im := 0 } : Complex), ⟨1, 0⟩, ⟨0, 0⟩, ⟨0, 0⟩] 4).length ∧
      ((getFrequencyComponents
          [({ re := 0, im := 0 } : Complex), ⟨1, 0⟩, ⟨0, 0⟩, ⟨0, 0⟩] 4).getD 0
            ⟨0, 0, 0, []⟩).signal.length
        = [({ re := 0, im := 0 } : Complex), ⟨1, 0⟩, ⟨0, 0⟩, ⟨0, 0⟩].length := by
  have hj : 0 < (getFrequencyComponents
      [({ re := 0, im := 0 } : Complex), ⟨1, 0⟩, ⟨0, 0⟩, ⟨0, 0⟩] 4).length := by
    rw [gfc_length]
    decide
  exact ⟨hj, (gfc_signal_spec _ 4 0 hj).1⟩

/-- C4 counterexample: a spectrum of length `M = 4` whose bin 1 is `3 + 4i`,
passed with `sampleCount N = 8`: the emitted amplitude is
`2·|3+4i|/M = 5/2`, while the claim's §3 formula `2·|3+4i|/N` gives `5/4`. -/
theorem gfc_amplitude_cex :
    0 < (getFrequencyComponents
          [({ re := 0, im := 0 } : Complex), ⟨3, 4⟩, ⟨0, 0⟩, ⟨0, 0⟩] 8).length ∧
      ((getFrequencyComponents
          [({ re := 0, im := 0 } : Complex), ⟨3, 4⟩, ⟨0, 0⟩, ⟨0, 0⟩] 8).getD 0
            ⟨0, 0, 0, []⟩).amplitude = 5 / 2 ∧
      2 * Real.sqrt ((3 : ℝ) * 3 + 4 * 4) / 8 = 5 / 4 ∧
      (5 / 2 : ℝ) ≠ 5 / 4 := by
  have h25 : Real.sqrt (25 : ℝ) = 5 := by
    rw [show (25 : ℝ) = 5 ^ 2 by norm_num]
    exact Real.sqrt_sq (by norm_num)
  have hj : 0 < (getFrequencyComponents
      [({ re := 0, im := 0 } : Complex), ⟨3, 4⟩, ⟨0, 0⟩, ⟨0, 0⟩] 8).length := by
    rw [gfc_length]
    decide
  refine ⟨hj, ?_, by norm_num [h25], by norm_num⟩
  rw [gfc_getD _ _ _ hj]
  unfold componentAt
  simp only [List.getD]
  norm_num [h25]

/-- C4 amended: every emitted record for bin `k = 1 + j` has amplitude
`2·sqrt(re² + im²)/M` with `M` the spectrum length (the §4.2 normalization,
not the `sampleCount` of §3), and phase `atan2(im, re)` of that bin. -/
theorem gfc_amplitude_phase_spec (s : List Complex) (n : ℤ) (j : ℕ)
    (hj : j < (getFrequencyComponents s n).length) :
    ((getFrequencyComponents s n).getD j ⟨0, 0, 0, []⟩).frequency = 1 + j ∧
      ((getFrequencyComponents s n).getD j ⟨0, 0, 0, []⟩).amplitude
        = 2 * Real.sqrt ((s.getD (1 + j) ⟨0, 0⟩).re * (s.getD (1 + j) ⟨0, 0⟩).re
              + (s.getD (1 + j) ⟨0, 0⟩).im * (s.getD (1 + j) ⟨0, 0⟩).im) / (s.length : ℝ) ∧
      ((getFrequencyComponents s n).getD j ⟨0, 0, 0, []⟩).phase
        = atan2 (s.getD (1 + j) ⟨0, 0⟩).im (s.getD (1 + j) ⟨0, 0⟩).re := by
  rw [gfc_getD s n j hj]
  unfold componentAt
  refine ⟨rfl, ?_, rfl⟩
  dsimp only
  ring

theorem gfc_amplitude_phase_spec_witness :
    ((getFrequencyComponents
        [({ re := 0, im := 0 } : Complex), ⟨3, 4⟩, ⟨0, 0⟩, ⟨0, 0⟩] 8).getD 0
          ⟨0, 0, 0, []⟩).frequency = 1 + 0 := by
  have hj : 0 < (getFrequencyComponents
      [({ re := 0, im := 0 } : Complex), ⟨3, 4⟩, ⟨0, 0⟩, ⟨0, 0⟩] 8).length := by
    rw [gfc_length]
    decide
  exact (gfc_amplitude_phase_spec _ 8 0 hj).1

/-- C8: the frequencies of the emitted records are exactly
`1, 2, …, ⌊M/2⌋ - 1` in strictly increasing order, one record per index —
never DC (0) and never Nyquist or above (`≥ ⌊M/2⌋`) — and a spectrum of
length at most 3 yields no records at all. -/
theorem gfc_frequency_range (s : List Complex) (n : ℤ) :
    ((getFrequencyComponents s n).map fun c => c.frequency)
        = List.range' 1 (s.length / 2 - 1) ∧
      (s.length ≤ 3 → getFrequencyComponents s n = []) := by
  constructor
  · rw [gfc_eq_map, List.map_map]
    have hcomp : ((fun c : FrequencyComponent => c.frequency) ∘ componentAt s) = id := by
      funext k
      rfl
    rw [hcomp, List.map_id]
  · intro h3
    have hz : (getFrequencyComponents s n).length = 0 := by
      rw [gfc_length]
      omega
    exact List.length_eq_zero.mp hz

theorem gfc_frequency_range_witness :
    getFrequencyComponents [({ re := 1, im := 0 } : Complex), ⟨2, 0⟩, ⟨3, 0⟩] 3 = [] :=
  (gfc_frequency_range [({ re := 1, im := 0 } : Complex), ⟨2, 0⟩, ⟨3, 0⟩] 3).2 (by decide)

end FFTExplorer
